import Mathlib

/-!
# Verification of the inky-stocks session-windowing and segmented renderer

This development embeds the core logic of `stocks_common.py` from the
`jdamcd/inky-stocks` repository:

* `select_window` / `fetch_market_window` — the session-window selection
  inside `fetch_market_data` (lines 49–63): partition the raw series by
  calendar date, keep the latest day, and stitch a tail of at most 16 prior
  samples when the latest day has at most 8 samples.
* `classifySegment` / `draw_negative_segments` — the per-pair accent
  (red) segmentation of `plot_graph`'s inner helper (lines 131–160),
  including the linear-interpolation crossing computation.  Python float
  division raises `ZeroDivisionError` on a zero divisor, which is modelled
  by the distinguished `SegResult.divErr` outcome.
* `plot_graph` — the drawing-command stream issued by `plot_graph`
  (lines 128–188): black polylines, red sub-segments, and the dashed
  vertical divider.  The later rasterization stage (matplotlib figure
  creation, `savefig`, PIL resize) is external-library behaviour and is
  outside this model; it does not affect the command geometry.

Prices are modelled as rationals, calendar dates as naturals.
-/

/-- A drawing colour used by `plot_graph` (`'black'` or `'red'`). -/
inductive Color where
  | black
  | red
deriving DecidableEq, Repr

/-- A drawing command issued to the plotting backend: `line c pts` models a
`plt.plot(xs, ys, color=c)` call and `vline x` models
`plt.axvline(x=..., linestyle='--')`. -/
inductive Cmd where
  | line (c : Color) (pts : List (ℚ × ℚ))
  | vline (x : ℚ)
deriving DecidableEq, Repr

/-- Whether a command draws in the accent (red) colour. -/
def Cmd.isAccent : Cmd → Bool
  | .line .red _ => true
  | _ => false

/-- The x-coordinates touched by a command. -/
def Cmd.xcoords : Cmd → List ℚ
  | .line _ pts => pts.map Prod.fst
  | .vline x => [x]

/-- Outcome of classifying one adjacent sample pair in
`draw_negative_segments`: no red drawing, one red segment (given by its two
endpoints), or a `ZeroDivisionError` from the crossing division. -/
inductive SegResult where
  | skip
  | seg (x1 y1 x2 y2 : ℚ)
  | divErr
deriving DecidableEq, Repr

/-- The body of the loop in `draw_negative_segments`
(`stocks_common.py` lines 136–160) for one pair `(p, q) = (price_data[i],
price_data[i+1])` at x-positions `xs = base_index + i`, `xe = base_index + i + 1`,
against the reference `start_price`.  The branch order mirrors the Python
`if`/`elif` chain; the division is guarded by a zero-divisor check standing
for Python's `ZeroDivisionError`. -/
def classifySegment (start_price p q xs xe : ℚ) : SegResult :=
  if p = q then
    -- Special case for consecutive identical prices
    if p < start_price then .seg xs p xe q else .skip
  else if p < start_price ∧ q < start_price then
    -- Both points below start, full red segment
    .seg xs p xe q
  else if p < start_price ∧ start_price ≤ q then
    -- Crossing start price, partial red segment
    if q - p = 0 then .divErr else
    .seg xs p (xs + (start_price - p) / (q - p)) start_price
  else if start_price ≤ p ∧ q < start_price then
    -- Opposite direction
    if q - p = 0 then .divErr else
    .seg (xs + (start_price - p) / (q - p)) start_price xe q
  else .skip

/-- The loop of `draw_negative_segments`: iterate over adjacent pairs of
`price_data` starting at x-position `base_index`, collecting the red
`plt.plot` commands in order; `none` models an uncaught
`ZeroDivisionError`. -/
def draw_negative_segments (start_price : ℚ) : List ℚ → ℚ → Option (List Cmd)
  | p :: q :: rest, xs =>
    match classifySegment start_price p q xs (xs + 1) with
    | .skip => draw_negative_segments start_price (q :: rest) (xs + 1)
    | .seg x1 y1 x2 y2 =>
        (draw_negative_segments start_price (q :: rest) (xs + 1)).map
          (fun cmds => Cmd.line Color.red [(x1, y1), (x2, y2)] :: cmds)
    | .divErr => none
  | _, _ => some []

/-- The point list of a `plt.plot(range(base, base + len ys), ys)` call:
sample values paired with consecutive integer x-positions from `base`. -/
def xyPoints (base : ℚ) : List ℚ → List (ℚ × ℚ)
  | [] => []
  | y :: ys => (base, y) :: xyPoints (base + 1) ys

/-- The polyline and segmentation commands of `plot_graph`
(`stocks_common.py` lines 128–185): the black polylines and, in
three-colour mode, the red segments from `draw_negative_segments`.
`none` models an uncaught `ZeroDivisionError` propagating out of the
segmentation. -/
def plot_graph_body (prices : List ℚ) (latest_day_index : ℕ)
    (three_color : Bool) : Option (List Cmd) :=
  if latest_day_index < prices.length then
    let start_price := prices.getD latest_day_index 0
    if 0 < latest_day_index then
      -- Plot previous day
      let pre := Cmd.line Color.black
        (xyPoints 0 (prices.take (latest_day_index + 1)))
      let latest_prices := prices.drop latest_day_index
      -- Plot latest day
      let main := Cmd.line Color.black
        (xyPoints (latest_day_index : ℚ) latest_prices)
      if three_color then
        (draw_negative_segments start_price latest_prices
            (latest_day_index : ℚ)).map (fun segs => pre :: main :: segs)
      else some [pre, main]
    else
      -- Plot latest day only
      let main := Cmd.line Color.black (xyPoints 0 prices)
      if three_color then
        (draw_negative_segments start_price prices 0).map
          (fun segs => main :: segs)
      else some [main]
  else
    some [Cmd.line Color.black (xyPoints 0 prices)]

/-- The full drawing-command stream of `plot_graph`
(`stocks_common.py` lines 128–188): the body above followed by the dashed
divider `axvline`, which is appended whenever `latest_day_index > 0`
(lines 187–188). -/
def plot_graph (prices : List ℚ) (latest_day_index : ℕ) (three_color : Bool) :
    Option (List Cmd) :=
  (plot_graph_body prices latest_day_index three_color).map (fun cmds =>
    if 0 < latest_day_index then cmds ++ [Cmd.vline (latest_day_index : ℚ)]
    else cmds)

/-- A time-series sample: the calendar date of its timestamp and its
closing price. -/
structure Sample where
  date : ℕ
  price : ℚ
deriving DecidableEq, Repr

/-- `data.index.date.max()`: the greatest calendar date present. -/
def maxDate : List Sample → ℕ
  | [] => 0
  | x :: rest => max x.date (maxDate rest)

/-- The session-window selection of `fetch_market_data`
(`stocks_common.py` lines 46–63), with the magic constants `8`
(`minS`, minimum useful latest-day sample count) and `16` (`tail_len`,
stitched-tail length) as parameters.  Returns the windowed series and
`latest_day_index = len(data) - len(latest_day_data)`; `none` models the
`ValueError` raised on empty input data. -/
def select_window (minS tail_len : ℕ) (s : List Sample) :
    Option (List Sample × ℕ) :=
  if s = [] then none
  else
    let latest := maxDate s
    let latestDayData := s.filter (fun x => x.date == latest)
    let window :=
      if latestDayData.length ≤ minS then
        let priorData := s.filter (fun x => x.date < latest)
        priorData.drop (priorData.length - tail_len) ++ latestDayData
      else latestDayData
    some (window, window.length - latestDayData.length)

/-- `fetch_market_data`'s windowing with the source's hard-coded
constants `8` and `16`. -/
def fetch_market_window (s : List Sample) : Option (List Sample × ℕ) :=
  select_window 8 16 s

/-- The pair classification never reaches the division with a zero
divisor: the `p == q` case is caught by the first branch, and in the two
crossing branches the prices are strictly separated by the reference. -/
theorem classifySegment_ne_divErr (r p q xs xe : ℚ) :
    classifySegment r p q xs xe ≠ SegResult.divErr := by
  unfold classifySegment
  split_ifs with h1 h2 h3 h4 h5 h6 <;> simp_all [sub_eq_zero]

/-- The segmentation loop never raises `ZeroDivisionError`. -/
theorem draw_negative_segments_ne_none (r : ℚ) :
    ∀ (data : List ℚ) (a : ℚ), draw_negative_segments r data a ≠ none := by
  intro data
  induction data with
  | nil => intro a; simp [draw_negative_segments]
  | cons p tail ih =>
    intro a
    cases tail with
    | nil => simp [draw_negative_segments]
    | cons q rest =>
      rw [draw_negative_segments]
      rcases hc : classifySegment r p q a (a + 1) with _ | ⟨x1, y1, x2, y2⟩ | _
      · exact ih (a + 1)
      · simp only [ne_eq, Option.map_eq_none']
        exact ih (a + 1)
      · exact absurd hc (classifySegment_ne_divErr r p q a (a + 1))

/-- Every red segment emitted for the pair at x-positions `a`, `a + 1`
lies at x-coordinates at least `a`. -/
theorem classifySegment_seg_bounds (r p q a x1 y1 x2 y2 : ℚ)
    (h : classifySegment r p q a (a + 1) = SegResult.seg x1 y1 x2 y2) :
    a ≤ x1 ∧ a ≤ x2 := by
  unfold classifySegment at h
  split_ifs at h with h1 h2 h3 h4 h5 h6 h7
  · injection h with e1 e2 e3 e4
    subst e1; subst e3; exact ⟨le_refl a, by linarith⟩
  · injection h with e1 e2 e3 e4
    subst e1; subst e3; exact ⟨le_refl a, by linarith⟩
  · injection h with e1 e2 e3 e4
    subst e1; subst e3
    have ht : 0 ≤ (r - p) / (q - p) :=
      div_nonneg (by linarith [h4.1]) (by linarith [h4.1, h4.2])
    exact ⟨le_refl a, by linarith⟩
  · injection h with e1 e2 e3 e4
    subst e1; subst e3
    have key : (r - p) / (q - p) = (p - r) / (p - q) := by
      rw [show r - p = -(p - r) from by ring, show q - p = -(p - q) from by ring,
        neg_div_neg_eq]
    have ht : 0 ≤ (r - p) / (q - p) := by
      rw [key]; exact div_nonneg (by linarith [h6.1]) (by linarith [h6.2])
    exact ⟨by linarith, by linarith⟩

/-- Every command produced by the segmentation loop started at x-position
`a` is a red two-point segment whose x-coordinates are at least `a`. -/
theorem draw_negative_segments_mem (r : ℚ) :
    ∀ (data : List ℚ) (a : ℚ) (cmds : List Cmd),
      draw_negative_segments r data a = some cmds →
      ∀ c ∈ cmds, ∃ x1 y1 x2 y2,
        c = Cmd.line Color.red [(x1, y1), (x2, y2)] ∧ a ≤ x1 ∧ a ≤ x2 := by
  intro data
  induction data with
  | nil =>
    intro a cmds h c hc
    simp [draw_negative_segments] at h
    subst h; simp at hc
  | cons p tail ih =>
    intro a cmds h c hc
    cases tail with
    | nil =>
      simp [draw_negative_segments] at h
      subst h; simp at hc
    | cons q rest =>
      rw [draw_negative_segments] at h
      cases hcl : classifySegment r p q a (a + 1) with
      | skip =>
        rw [hcl] at h
        obtain ⟨u1, v1, u2, v2, hce, hb1, hb2⟩ := ih (a + 1) cmds h c hc
        exact ⟨u1, v1, u2, v2, hce, by linarith, by linarith⟩
      | seg u1 v1 u2 v2 =>
        rw [hcl] at h
        obtain ⟨cmds0, h0, rfl⟩ := Option.map_eq_some'.mp h
        rcases List.mem_cons.mp hc with rfl | hc0
        · obtain ⟨hb1, hb2⟩ := classifySegment_seg_bounds r p q a u1 v1 u2 v2 hcl
          exact ⟨u1, v1, u2, v2, rfl, hb1, hb2⟩
        · obtain ⟨w1, z1, w2, z2, hce, hb1, hb2⟩ := ih (a + 1) cmds0 h0 c hc0
          exact ⟨w1, z1, w2, z2, hce, by linarith, by linarith⟩
      | divErr =>
        rw [hcl] at h
        cases h

/-- C1: for every adjacent pair crossing the reference price `r`
(upward `p < r ≤ q` or downward `q < r ≤ p`), the classification computes
the crossing fraction `t = (r - p) / (q - p)`, which already lies in
`[0, 1]`, and colours in accent exactly the sub-segment on the side where
the price is below `r`, from that endpoint to the interpolated point
`xs + t`; in particular for samples `(5, 100)` and `(6, 120)` with
reference `110` the accent sub-segment ends exactly at index `5.5`. -/
theorem crossing_interpolation_correct (r p q xs xe : ℚ) :
    (p < r → r ≤ q →
      0 ≤ (r - p) / (q - p) ∧ (r - p) / (q - p) ≤ 1 ∧
      classifySegment r p q xs xe =
        SegResult.seg xs p (xs + (r - p) / (q - p)) r) ∧
    (q < r → r ≤ p →
      0 ≤ (r - p) / (q - p) ∧ (r - p) / (q - p) ≤ 1 ∧
      classifySegment r p q xs xe =
        SegResult.seg (xs + (r - p) / (q - p)) r xe q) ∧
    classifySegment 110 100 120 5 6 = SegResult.seg 5 100 (11 / 2) 110 := by
  refine ⟨fun hp hq => ?_, fun hq hp => ?_, by norm_num [classifySegment]⟩
  · have hpq : p < q := lt_of_lt_of_le hp hq
    have hd : (0 : ℚ) < q - p := by linarith
    refine ⟨le_of_lt (div_pos (by linarith) hd),
      (div_le_one hd).mpr (by linarith), ?_⟩
    unfold classifySegment
    rw [if_neg (by intro h; exact absurd h (ne_of_lt hpq)),
        if_neg (by intro h; linarith [h.2]),
        if_pos ⟨hp, hq⟩, if_neg (by intro h; linarith)]
  · have hqp : q < p := lt_of_lt_of_le hq hp
    have key : (r - p) / (q - p) = (p - r) / (p - q) := by
      rw [show r - p = -(p - r) from by ring, show q - p = -(p - q) from by ring,
        neg_div_neg_eq]
    have hd : (0 : ℚ) < p - q := by linarith
    refine ⟨key ▸ div_nonneg (by linarith) (le_of_lt hd),
      key ▸ (div_le_one hd).mpr (by linarith), ?_⟩
    unfold classifySegment
    rw [if_neg (by intro h; exact absurd h.symm (ne_of_lt hqp)),
        if_neg (by intro h; linarith [h.1]),
        if_neg (by intro h; linarith [h.1]),
        if_pos ⟨hp, hq⟩, if_neg (by intro h; linarith)]

/-- Witness for C1 at the spec's concrete pair `(5, 100)`, `(6, 120)`
with reference price `110`. -/
theorem crossing_interpolation_correct_witness :
    0 ≤ ((110 : ℚ) - 100) / (120 - 100) ∧
    ((110 : ℚ) - 100) / (120 - 100) ≤ 1 ∧
    classifySegment 110 100 120 5 6 =
      SegResult.seg 5 100 (5 + ((110 : ℚ) - 100) / (120 - 100)) 110 :=
  (crossing_interpolation_correct 110 100 120 5 6).1 (by norm_num) (by norm_num)

/-- C5: a pair of equal prices is drawn as one full flat accent segment
exactly when the common value is strictly below the reference, and the
crossing division is unreachable on such a pair (and indeed the
segmentation routine never raises `ZeroDivisionError` at all). -/
theorem flat_segment_rule (r p xs : ℚ) :
    (∀ xe, classifySegment r p p xs xe =
      if p < r then SegResult.seg xs p xe p else SegResult.skip) ∧
    draw_negative_segments r [p, p] xs =
      some (if p < r then [Cmd.line Color.red [(xs, p), (xs + 1, p)]] else []) ∧
    (∀ q xe, classifySegment r p q xs xe ≠ SegResult.divErr) ∧
    (∀ data a, draw_negative_segments r data a ≠ none) := by
  refine ⟨fun xe => by simp [classifySegment], ?_,
    fun q xe => classifySegment_ne_divErr r p q xs xe,
    draw_negative_segments_ne_none r⟩
  by_cases hp : p < r <;> simp [draw_negative_segments, classifySegment, hp]

/-- Every command in a successful `plot_graph_body` result is a black
polyline or a red two-point segment with x-coordinates at least the
boundary index. -/
theorem plot_graph_body_mem (prices : List ℚ) (b : ℕ) (tc : Bool)
    (cmds : List Cmd) (h : plot_graph_body prices b tc = some cmds) :
    ∀ c ∈ cmds, (∃ pts, c = Cmd.line Color.black pts) ∨
      (∃ x1 y1 x2 y2, c = Cmd.line Color.red [(x1, y1), (x2, y2)] ∧
        (b : ℚ) ≤ x1 ∧ (b : ℚ) ≤ x2) := by
  intro c hc
  simp only [plot_graph_body] at h
  split_ifs at h with hlen hb htc htc2
  · obtain ⟨segs, hsegs, rfl⟩ := Option.map_eq_some'.mp h
    rcases List.mem_cons.mp hc with rfl | hc0
    · exact Or.inl ⟨_, rfl⟩
    rcases List.mem_cons.mp hc0 with rfl | hc1
    · exact Or.inl ⟨_, rfl⟩
    obtain ⟨x1, y1, x2, y2, hce, hb1, hb2⟩ :=
      draw_negative_segments_mem _ _ _ _ hsegs c hc1
    exact Or.inr ⟨x1, y1, x2, y2, hce, hb1, hb2⟩
  · injection h with h'
    subst h'
    rcases List.mem_cons.mp hc with rfl | hc0
    · exact Or.inl ⟨_, rfl⟩
    rcases List.mem_cons.mp hc0 with rfl | hc1
    · exact Or.inl ⟨_, rfl⟩
    simp at hc1
  · obtain ⟨segs, hsegs, rfl⟩ := Option.map_eq_some'.mp h
    have hb0 : b = 0 := Nat.eq_zero_of_not_pos hb
    rcases List.mem_cons.mp hc with rfl | hc0
    · exact Or.inl ⟨_, rfl⟩
    obtain ⟨x1, y1, x2, y2, hce, hb1, hb2⟩ :=
      draw_negative_segments_mem _ _ _ _ hsegs c hc0
    subst hb0
    exact Or.inr ⟨x1, y1, x2, y2, hce, by simpa using hb1, by simpa using hb2⟩
  · injection h with h'
    subst h'
    rcases List.mem_cons.mp hc with rfl | hc0
    · exact Or.inl ⟨_, rfl⟩
    simp at hc0
  · injection h with h'
    subst h'
    rcases List.mem_cons.mp hc with rfl | hc0
    · exact Or.inl ⟨_, rfl⟩
    simp at hc0

/-- With a proper interior boundary, the previous-day polyline over the
samples up to and including the boundary is part of the body commands. -/
theorem plot_graph_body_pre_mem (prices : List ℚ) (b : ℕ) (tc : Bool)
    (cmds : List Cmd) (hb : 0 < b) (hlen : b < prices.length)
    (h : plot_graph_body prices b tc = some cmds) :
    Cmd.line Color.black (xyPoints 0 (prices.take (b + 1))) ∈ cmds := by
  simp only [plot_graph_body, if_pos hlen, if_pos hb] at h
  cases tc with
  | false =>
    simp only [Bool.false_eq_true, if_neg] at h
    injection h with h'
    subst h'
    exact List.mem_cons_self _ _
  | true =>
    simp only [if_pos] at h
    obtain ⟨segs, hsegs, rfl⟩ := Option.map_eq_some'.mp h
    exact List.mem_cons_self _ _

/-- C2 (amended): the dashed divider at the boundary x-coordinate is drawn
if and only if `0 < boundaryIndex`, with no upper-bound check; in the
degenerate case `boundaryIndex ≥ length(series)` segmentation is skipped
and every command is base-coloured, but the divider is still appended
whenever the boundary is positive. -/
theorem divider_iff_positive_boundary (prices : List ℚ) (b : ℕ) (tc : Bool)
    (cmds : List Cmd) (h : plot_graph prices b tc = some cmds) :
    (Cmd.vline (b : ℚ) ∈ cmds ↔ 0 < b) ∧
    (prices.length ≤ b → ∀ c ∈ cmds, c.isAccent = false) := by
  obtain ⟨body0, hbody, rfl⟩ := Option.map_eq_some'.mp h
  constructor
  · by_cases hb : 0 < b
    · simp [hb]
    · simp only [if_neg hb]
      constructor
      · intro hmem
        rcases plot_graph_body_mem prices b tc body0 hbody _ hmem with
          ⟨pts, hc⟩ | ⟨x1, y1, x2, y2, hc, h1, h2⟩ <;> simp at hc
      · intro hb'; exact absurd hb' hb
  · intro hge c hc
    have hnl : ¬ b < prices.length := not_lt.mpr hge
    have hb0 : body0 = [Cmd.line Color.black (xyPoints 0 prices)] := by
      simp only [plot_graph_body, if_neg hnl] at hbody
      injection hbody with h'; exact h'.symm
    subst hb0
    by_cases hb : 0 < b <;> simp only [if_pos, if_neg, hb, if_true, if_false] at hc
    · rcases List.mem_append.mp hc with hc0 | hc1
      · simp at hc0; subst hc0; rfl
      · simp at hc1; subst hc1; rfl
    · simp at hc; subst hc; rfl

/-- Counterexample to C2 as stated: for the single-sample series `[100]`
with `boundaryIndex = 1 = length(series)`, the divider `axvline` at `x = 1`
is drawn even though `0 < boundaryIndex < length(series)` fails. -/
theorem divider_drawn_at_degenerate_boundary :
    plot_graph [100] 1 false =
      some [Cmd.line Color.black [(0, 100)], Cmd.vline 1] ∧
    ¬ (1 < ([(100 : ℚ)] : List ℚ).length) := by
  refine ⟨?_, by simp⟩
  norm_num [plot_graph, plot_graph_body, xyPoints]

/-- Witness for the amended C2 at the degenerate input `[100]`,
`boundaryIndex = 1`. -/
theorem divider_iff_positive_boundary_witness :
    (Cmd.vline ((1 : ℕ) : ℚ) ∈
        [Cmd.line Color.black [((0 : ℚ), (100 : ℚ))], Cmd.vline 1] ↔ 0 < 1) ∧
    (([(100 : ℚ)] : List ℚ).length ≤ 1 →
      ∀ c ∈ [Cmd.line Color.black [((0 : ℚ), (100 : ℚ))], Cmd.vline 1],
        c.isAccent = false) :=
  divider_iff_positive_boundary [100] 1 false
    [Cmd.line Color.black [(0, 100)], Cmd.vline 1]
    (by norm_num [plot_graph, plot_graph_body, xyPoints])

/-- C6: with an interior boundary, every accent-coloured command lies at
x-coordinates at or after the boundary index (equal-price, full-segment
and interpolated-crossing sub-segments alike), in both colour modes, and
the pre-boundary stitched tail is drawn as a base-colour polyline. -/
theorem accent_only_post_boundary (prices : List ℚ) (b : ℕ) (tc : Bool)
    (cmds : List Cmd) (hb : 0 < b) (hlen : b < prices.length)
    (h : plot_graph prices b tc = some cmds) :
    (∀ c ∈ cmds, c.isAccent = true → ∀ x ∈ c.xcoords, (b : ℚ) ≤ x) ∧
    Cmd.line Color.black (xyPoints 0 (prices.take (b + 1))) ∈ cmds := by
  obtain ⟨body0, hbody, rfl⟩ := Option.map_eq_some'.mp h
  simp only [if_pos hb]
  constructor
  · intro c hc hacc x hx
    rcases List.mem_append.mp hc with hc0 | hc1
    · rcases plot_graph_body_mem prices b tc body0 hbody c hc0 with
        ⟨pts, rfl⟩ | ⟨x1, y1, x2, y2, rfl, hb1, hb2⟩
      · simp [Cmd.isAccent] at hacc
      · simp [Cmd.xcoords] at hx
        rcases hx with rfl | rfl <;> assumption
    · simp at hc1; subst hc1; simp [Cmd.isAccent] at hacc
  · exact List.mem_append_left _
      (plot_graph_body_pre_mem prices b tc body0 hb hlen hbody)

/-- Witness for C6 on the three-sample series `[100, 90, 110]` with
boundary `1` in three-colour mode. -/
theorem accent_only_post_boundary_witness :
    (∀ c ∈ [Cmd.line Color.black [((0 : ℚ), (100 : ℚ)), (1, 90)],
            Cmd.line Color.black [((1 : ℚ), (90 : ℚ)), (2, 110)],
            Cmd.vline 1],
        c.isAccent = true → ∀ x ∈ c.xcoords, ((1 : ℕ) : ℚ) ≤ x) ∧
    Cmd.line Color.black (xyPoints 0 (([100, 90, 110] : List ℚ).take (1 + 1))) ∈
      [Cmd.line Color.black [((0 : ℚ), (100 : ℚ)), (1, 90)],
       Cmd.line Color.black [((1 : ℚ), (90 : ℚ)), (2, 110)],
       Cmd.vline 1] :=
  accent_only_post_boundary [100, 90, 110] 1 true
    [Cmd.line Color.black [(0, 100), (1, 90)],
     Cmd.line Color.black [(1, 90), (2, 110)], Cmd.vline 1]
    (by norm_num) (by norm_num)
    (by norm_num [plot_graph, plot_graph_body, draw_negative_segments,
      classifySegment, xyPoints])

/-- The maximum date of a non-empty series is attained by some sample. -/
theorem maxDate_mem : ∀ (s : List Sample), s ≠ [] → ∃ x ∈ s, x.date = maxDate s := by
  intro s
  induction s with
  | nil => intro h; exact absurd rfl h
  | cons a t ih =>
    intro _
    by_cases ht : t = []
    · subst ht; exact ⟨a, List.mem_cons_self _ _, by simp [maxDate]⟩
    · obtain ⟨x, hx, hxd⟩ := ih ht
      rcases le_total a.date (maxDate t) with hle | hle
      · exact ⟨x, List.mem_cons_of_mem _ hx,
          by simp [maxDate, max_eq_right hle, hxd]⟩
      · exact ⟨a, List.mem_cons_self _ _, by simp [maxDate, max_eq_left hle]⟩

/-- The latest-day portion of a non-empty series is non-empty. -/
theorem filter_latest_ne_nil (s : List Sample) (hne : s ≠ []) :
    s.filter (fun x => x.date == maxDate s) ≠ [] := by
  obtain ⟨x, hx, hxd⟩ := maxDate_mem s hne
  intro h
  have hmem : x ∈ s.filter (fun x => x.date == maxDate s) :=
    List.mem_filter.mpr ⟨hx, by simp [hxd]⟩
  rw [h] at hmem
  simp at hmem

/-- `findIdx` skips a prefix on which the predicate is everywhere false. -/
theorem findIdx_append_false (p : Sample → Bool) :
    ∀ (l1 l2 : List Sample), (∀ x ∈ l1, p x = false) →
      List.findIdx p (l1 ++ l2) = l1.length + List.findIdx p l2 := by
  intro l1
  induction l1 with
  | nil => simp
  | cons a t ih =>
    intro l2 hall
    have ha : p a = false := hall a (List.mem_cons_self _ _)
    rw [List.cons_append, List.findIdx_cons, ha]
    simp only [cond_false]
    rw [ih l2 (fun x hx => hall x (List.mem_cons_of_mem _ hx))]
    simp [List.length_cons]
    omega

/-- The first latest-day sample of the latest-day portion is its head. -/
theorem findIdx_filter_latest_zero (s : List Sample)
    (hne : s.filter (fun x => x.date == maxDate s) ≠ []) :
    List.findIdx (fun x => x.date == maxDate s)
      (s.filter (fun x => x.date == maxDate s)) = 0 := by
  cases hL : s.filter (fun x => x.date == maxDate s) with
  | nil => exact absurd hL hne
  | cons l0 t =>
    have hmem : l0 ∈ s.filter (fun x => x.date == maxDate s) := by
      rw [hL]; exact List.mem_cons_self _ _
    have hp : (l0.date == maxDate s) = true := (List.mem_filter.mp hmem).2
    simp [List.findIdx_cons, hp]

/-- C3: when the latest calendar day has strictly more than
`minSessionSamples` samples, the selection returns exactly the latest-day
samples with `boundaryIndex = 0` and no stitched prior-day tail. -/
theorem long_latest_day_window (minS tail_len : ℕ) (s : List Sample)
    (hne : s ≠ [])
    (hlong : minS < (s.filter (fun x => x.date == maxDate s)).length) :
    select_window minS tail_len s =
      some (s.filter (fun x => x.date == maxDate s), 0) := by
  simp [select_window, hne, not_le.mpr hlong]

/-- C7: for every non-empty input the selection succeeds with a non-empty
window, `boundaryIndex ≤ length`, and `boundaryIndex` is the index of the
first latest-date sample within the returned series. -/
theorem window_invariants (minS tail_len : ℕ) (s : List Sample)
    (hne : s ≠ []) (w : List Sample) (b : ℕ)
    (h : select_window minS tail_len s = some (w, b)) :
    w ≠ [] ∧ b ≤ w.length ∧
    List.findIdx (fun x => x.date == maxDate s) w = b := by
  have hLne := filter_latest_ne_nil s hne
  simp only [select_window, if_neg hne] at h
  by_cases hshort :
      (s.filter (fun x => x.date == maxDate s)).length ≤ minS
  · rw [if_pos hshort] at h
    obtain ⟨rfl, rfl⟩ :
        (s.filter (fun x => x.date < maxDate s)).drop
            ((s.filter (fun x => x.date < maxDate s)).length - tail_len) ++
          s.filter (fun x => x.date == maxDate s) = w ∧
        ((s.filter (fun x => x.date < maxDate s)).drop
            ((s.filter (fun x => x.date < maxDate s)).length - tail_len) ++
          s.filter (fun x => x.date == maxDate s)).length -
          (s.filter (fun x => x.date == maxDate s)).length = b := by
      simpa using h
    have hallfalse : ∀ x ∈ (s.filter (fun x => x.date < maxDate s)).drop
        ((s.filter (fun x => x.date < maxDate s)).length - tail_len),
        (fun x => x.date == maxDate s) x = false := by
      intro x hx
      have hxp : x ∈ s.filter (fun x => x.date < maxDate s) :=
        List.mem_of_mem_drop hx
      have hlt : x.date < maxDate s := by
        simpa using (List.mem_filter.mp hxp).2
      simp [Nat.ne_of_lt hlt]
    refine ⟨?_, Nat.sub_le _ _, ?_⟩
    · intro hw
      rcases List.append_eq_nil.mp hw with ⟨h1, h2⟩
      exact hLne h2
    · rw [findIdx_append_false _ _ _ hallfalse,
        findIdx_filter_latest_zero s hLne, List.length_append]
      omega
  · rw [if_neg hshort] at h
    obtain ⟨rfl, rfl⟩ :
        s.filter (fun x => x.date == maxDate s) = w ∧
        (s.filter (fun x => x.date == maxDate s)).length -
          (s.filter (fun x => x.date == maxDate s)).length = b := by
      simpa using h
    refine ⟨hLne, Nat.sub_le _ _, ?_⟩
    rw [Nat.sub_self]
    exact findIdx_filter_latest_zero s hLne

/-- C4: when the latest day has at most `minSessionSamples` samples and
the prior portion is non-empty, the window is the last
`min(stitchedTailLength, count(priorPortion))` prior samples followed by
the latest-day samples, its length is the sum of those two counts, and
`boundaryIndex` is the stitched-tail length actually used. -/
theorem stitched_window_shape (minS tail_len : ℕ) (s : List Sample)
    (hne : s ≠ [])
    (hshort : (s.filter (fun x => x.date == maxDate s)).length ≤ minS)
    (_hprior : s.filter (fun x => x.date < maxDate s) ≠ []) :
    select_window minS tail_len s =
      some ((s.filter (fun x => x.date < maxDate s)).drop
              ((s.filter (fun x => x.date < maxDate s)).length - tail_len) ++
            s.filter (fun x => x.date == maxDate s),
            min tail_len (s.filter (fun x => x.date < maxDate s)).length) ∧
    ((s.filter (fun x => x.date < maxDate s)).drop
        ((s.filter (fun x => x.date < maxDate s)).length - tail_len) ++
      s.filter (fun x => x.date == maxDate s)).length =
      min tail_len (s.filter (fun x => x.date < maxDate s)).length +
        (s.filter (fun x => x.date == maxDate s)).length := by
  have hlen : ((s.filter (fun x => x.date < maxDate s)).drop
      ((s.filter (fun x => x.date < maxDate s)).length - tail_len) ++
      s.filter (fun x => x.date == maxDate s)).length =
      min tail_len (s.filter (fun x => x.date < maxDate s)).length +
        (s.filter (fun x => x.date == maxDate s)).length := by
    simp [List.length_append, List.length_drop]
    omega
  refine ⟨?_, hlen⟩
  simp only [select_window, if_neg hne, if_pos hshort]
  rw [Option.some.injEq, Prod.mk.injEq]
  refine ⟨rfl, ?_⟩
  rw [hlen]
  omega

/-- C10: when the whole series belongs to a single calendar day and is
short, the stitching branch is taken with an empty prior portion, so the
result is exactly the latest-day samples (the full series) with
`boundaryIndex = 0`, identical to the non-stitched case. -/
theorem single_day_short_session_window (minS tail_len d : ℕ)
    (s : List Sample) (hne : s ≠ []) (hd : ∀ x ∈ s, x.date = d)
    (hshort : s.length ≤ minS) :
    select_window minS tail_len s = some (s, 0) ∧
    s.filter (fun x => x.date == maxDate s) = s := by
  have hmax : maxDate s = d := by
    obtain ⟨x, hx, hxd⟩ := maxDate_mem s hne
    rw [← hxd, hd x hx]
  have hfilter : s.filter (fun x => x.date == maxDate s) = s :=
    List.filter_eq_self.mpr (fun x hx => by simp [hd x hx, hmax])
  have hpriornil : s.filter (fun x => x.date < maxDate s) = [] :=
    List.filter_eq_nil_iff.mpr (fun x hx => by simp [hd x hx, hmax])
  refine ⟨?_, hfilter⟩
  simp only [select_window, if_neg hne, hfilter, if_pos hshort, hpriornil]
  simp

/-- Witness for C3: three samples, two of them on the latest day. -/
theorem long_latest_day_window_witness :
    select_window 1 16 [⟨0, 1⟩, ⟨1, 2⟩, ⟨1, 3⟩] =
      some (([⟨0, 1⟩, ⟨1, 2⟩, ⟨1, 3⟩] : List Sample).filter
        (fun x => x.date == maxDate [⟨0, 1⟩, ⟨1, 2⟩, ⟨1, 3⟩]), 0) :=
  long_latest_day_window 1 16 [⟨0, 1⟩, ⟨1, 2⟩, ⟨1, 3⟩]
    (by simp) (by simp [maxDate])

/-- Witness for C4: a one-sample latest day stitched with a two-sample tail. -/
theorem stitched_window_shape_witness :
    select_window 1 2 [⟨0, 1⟩, ⟨0, 2⟩, ⟨0, 3⟩, ⟨1, 4⟩] =
      some ((([⟨0, 1⟩, ⟨0, 2⟩, ⟨0, 3⟩, ⟨1, 4⟩] : List Sample).filter
              (fun x => x.date < maxDate [⟨0, 1⟩, ⟨0, 2⟩, ⟨0, 3⟩, ⟨1, 4⟩])).drop
              ((([⟨0, 1⟩, ⟨0, 2⟩, ⟨0, 3⟩, ⟨1, 4⟩] : List Sample).filter
                (fun x => x.date < maxDate [⟨0, 1⟩, ⟨0, 2⟩, ⟨0, 3⟩, ⟨1, 4⟩])).length - 2) ++
            ([⟨0, 1⟩, ⟨0, 2⟩, ⟨0, 3⟩, ⟨1, 4⟩] : List Sample).filter
              (fun x => x.date == maxDate [⟨0, 1⟩, ⟨0, 2⟩, ⟨0, 3⟩, ⟨1, 4⟩]),
            min 2 (([⟨0, 1⟩, ⟨0, 2⟩, ⟨0, 3⟩, ⟨1, 4⟩] : List Sample).filter
              (fun x => x.date < maxDate [⟨0, 1⟩, ⟨0, 2⟩, ⟨0, 3⟩, ⟨1, 4⟩])).length) ∧
    ((([⟨0, 1⟩, ⟨0, 2⟩, ⟨0, 3⟩, ⟨1, 4⟩] : List Sample).filter
        (fun x => x.date < maxDate [⟨0, 1⟩, ⟨0, 2⟩, ⟨0, 3⟩, ⟨1, 4⟩])).drop
        ((([⟨0, 1⟩, ⟨0, 2⟩, ⟨0, 3⟩, ⟨1, 4⟩] : List Sample).filter
          (fun x => x.date < maxDate [⟨0, 1⟩, ⟨0, 2⟩, ⟨0, 3⟩, ⟨1, 4⟩])).length - 2) ++
      ([⟨0, 1⟩, ⟨0, 2⟩, ⟨0, 3⟩, ⟨1, 4⟩] : List Sample).filter
        (fun x => x.date == maxDate [⟨0, 1⟩, ⟨0, 2⟩, ⟨0, 3⟩, ⟨1, 4⟩])).length =
      min 2 (([⟨0, 1⟩, ⟨0, 2⟩, ⟨0, 3⟩, ⟨1, 4⟩] : List Sample).filter
        (fun x => x.date < maxDate [⟨0, 1⟩, ⟨0, 2⟩, ⟨0, 3⟩, ⟨1, 4⟩])).length +
      (([⟨0, 1⟩, ⟨0, 2⟩, ⟨0, 3⟩, ⟨1, 4⟩] : List Sample).filter
        (fun x => x.date == maxDate [⟨0, 1⟩, ⟨0, 2⟩, ⟨0, 3⟩, ⟨1, 4⟩])).length :=
  stitched_window_shape 1 2 [⟨0, 1⟩, ⟨0, 2⟩, ⟨0, 3⟩, ⟨1, 4⟩]
    (by simp) (by simp [maxDate]) (by simp [maxDate])

/-- Witness for C7 on the stitched four-sample series. -/
theorem window_invariants_witness :
    ([⟨0, 2⟩, ⟨0, 3⟩, ⟨1, 4⟩] : List Sample) ≠ [] ∧
    2 ≤ ([⟨0, 2⟩, ⟨0, 3⟩, ⟨1, 4⟩] : List Sample).length ∧
    List.findIdx (fun x : Sample => x.date == maxDate [⟨0, 1⟩, ⟨0, 2⟩, ⟨0, 3⟩, ⟨1, 4⟩])
      [⟨0, 2⟩, ⟨0, 3⟩, ⟨1, 4⟩] = 2 :=
  window_invariants 1 2 [⟨0, 1⟩, ⟨0, 2⟩, ⟨0, 3⟩, ⟨1, 4⟩] (by simp)
    [⟨0, 2⟩, ⟨0, 3⟩, ⟨1, 4⟩] 2
    (by simp [select_window, maxDate])

/-- Witness for C10 on a single-sample single-day series. -/
theorem single_day_short_session_window_witness :
    select_window 8 16 [⟨3, 5⟩] = some ([⟨3, 5⟩], 0) ∧
    ([⟨3, 5⟩] : List Sample).filter
      (fun x => x.date == maxDate [⟨3, 5⟩]) = [⟨3, 5⟩] :=
  single_day_short_session_window 8 16 3 [⟨3, 5⟩] (by simp)
    (by intro x hx; simp at hx; simp [hx]) (by simp)
